import Mathlib

/-!
Shallow embedding of the `gag` tag-explorer (the most complete snapshot of
the program: `Set`, `Tagmap`, `ParseQuery`, `Date`, `Grep`, `Find`, `Diff`,
`IntersectQueries`, `Adjacencies`, `ReduceAdjacencies`, `SprintFiles`,
`Print`), together with theorems settling the specification claims.

Modelling conventions:
* Go `type Set map[string]bool` stores only the value `true` in this
  program (`Set.Add` writes `true`, `Diff` uses the builtin `delete`), so a
  set is represented by its list of keys.  Go map iteration order is
  unspecified; where a claim depends on it, the key list passed to the
  function plays the role of one concrete iteration order, and different
  orders are related by `List.Perm`.
* Go `map[string]Set` is represented by an association list; indexing a
  missing key yields the `nil` set, exactly as a Go map read does.
* Strings are Lean `String`s; character-level operations (`strings.Split`,
  `strings.Contains`, `strings.ToLower`) work on the character list.
  `strings.ToLower` is modelled on ASCII letters, the only case the claims
  exercise.
* `time.Time` values in this program are always calendar dates with a zero
  clock (either the zero `time.Time{}`, which is 0001-01-01, or the result
  of `time.Parse("2006.01.02", s)`), so they are modelled as year/month/day
  triples compared lexicographically.
-/

namespace Gag

/-- Go `type Set map[string]bool`, represented by its key list (every
stored value in this program is `true`). -/
abbrev GoSet := List String

/-- Go `Set.Add` for one member: a map insert, keeping the set unchanged
when the key is already present. -/
def setAdd (s : GoSet) (m : String) : GoSet :=
  if m ∈ s then s else s ++ [m]

/-- Go `Set.Add(mems ...string)`: add each member in turn. -/
def setAddAll (s : GoSet) (mems : List String) : GoSet :=
  mems.foldl setAdd s

/-- Go `Intersect`: iterate `p`, keep the members that are in `q`. -/
def Intersect (p q : GoSet) : GoSet :=
  p.filter (fun m => m ∈ q)

/-- Go `map[string]Set` (the tagmap and the adjacency map), as an
association list. -/
abbrev Tagmap := List (String × GoSet)

/-- Go map read `tm[k]`: the first binding of `k`, or the nil set when the
key is missing (a missing key reads as the empty set). -/
def tmGet (tm : Tagmap) (k : String) : GoSet :=
  match tm with
  | [] => []
  | (k', v) :: rest => if k' = k then v else tmGet rest k

/-- Go `_, ok := tm[k]`: whether the key is present. -/
def tmContainsKey (tm : Tagmap) (k : String) : Bool :=
  match tm with
  | [] => false
  | (k', _) :: rest => k' = k || tmContainsKey rest k

/-- Go map write `tm[k] = v`: replace the binding of `k`, or append it. -/
def tmInsert (tm : Tagmap) (k : String) (v : GoSet) : Tagmap :=
  match tm with
  | [] => [(k, v)]
  | (k', v') :: rest => if k' = k then (k, v) :: rest else (k', v') :: tmInsert rest k v

/-- A document record: Go `type Entry struct`. -/
structure GoDate where
  year : Nat
  month : Nat
  day : Nat
deriving DecidableEq, Repr

/-- The zero `time.Time{}`, which is the calendar date 0001-01-01. -/
def GoDate.zero : GoDate := ⟨1, 1, 1⟩

structure Entry where
  filename : String
  date : GoDate
  content : String
  tags : List String
deriving DecidableEq, Repr

/-- Go `strings.Split(s, sep)` for a one-character separator, on the
character list. -/
def goSplit (s : List Char) (sep : Char) : List (List Char) :=
  match s with
  | [] => [[]]
  | c :: rest =>
    if c = sep then [] :: goSplit rest sep
    else
      match goSplit rest sep with
      | [] => [[c]]
      | t :: ts => (c :: t) :: ts

/-- Go `strings.Join(elems, sep)` for a one-character separator. -/
def joinSep (sep : Char) : List (List Char) → List Char
  | [] => []
  | [x] => x
  | x :: xs => x ++ sep :: joinSep sep xs

/-- Go `ParseQuery`: `strings.Split(query, "+")` (the comment in the source
reads: only accepts intersection syntax for now). -/
def ParseQuery (query : String) : List String :=
  (goSplit query.toList '+').map List.asString

/-- Helper for Go `strings.Contains`: substring test on character lists. -/
def containsCL : List Char → List Char → Bool
  | s, sub =>
    if sub.isPrefixOf s then true
    else
      match s with
      | [] => false
      | _ :: rest => containsCL rest sub

/-- Go `strings.Contains(s, sub)`. -/
def goContains (s sub : String) : Bool :=
  containsCL s.toList sub.toList

/-- Go `strings.ToLower`, on the ASCII letters this corpus uses. -/
def goToLower (s : String) : String :=
  (s.toList.map Char.toLower).asString

/-- One step of the inner query loop of Go `Grep`: on a content match,
allocate the submap if necessary and add the filename. -/
def grepStep (e : Entry) (tm : Tagmap) (query : String) : Tagmap :=
  if goContains (goToLower e.content) query then
    tmInsert tm query (setAdd (tmGet tm query) e.filename)
  else tm

/-- The body of the outer entry loop of Go `Grep`. -/
def grepEntry (queries : List String) (tm : Tagmap) (e : Entry) : Tagmap :=
  queries.foldl (grepStep e) tm

/-- Go `Grep`: extends the tagmap with files whose (lowercased) content
contains the query string. -/
def Grep (entries : List Entry) (tagmap : Tagmap) (queries : List String) : Tagmap :=
  entries.foldl (grepEntry queries) tagmap

/-- One step of the inner query loop of Go `Find`: filename match. -/
def findStep (e : Entry) (tm : Tagmap) (query : String) : Tagmap :=
  if goContains e.filename query then
    tmInsert tm query (setAdd (tmGet tm query) e.filename)
  else tm

/-- The body of the outer entry loop of Go `Find`. -/
def findEntry (queries : List String) (tm : Tagmap) (e : Entry) : Tagmap :=
  queries.foldl (findStep e) tm

/-- Go `Find`: extends the tagmap with filenames containing the query. -/
def Find (entries : List Entry) (tagmap : Tagmap) (queries : List String) : Tagmap :=
  entries.foldl (findEntry queries) tagmap

/-- One step of the inner query loop of Go `Diff`: when the entry is tagged
with the query and the key exists, `delete(tagmap[query], e.filename)`. -/
def diffStep (e : Entry) (tm : Tagmap) (query : String) : Tagmap :=
  if query ∈ e.tags then
    if tmContainsKey tm query then
      tmInsert tm query ((tmGet tm query).filter (fun f => f ≠ e.filename))
    else tm
  else tm

/-- The body of the outer entry loop of Go `Diff`. -/
def diffEntry (queries : List String) (tm : Tagmap) (e : Entry) : Tagmap :=
  queries.foldl (diffStep e) tm

/-- Go `Diff`: shrinks the tagmap to exclude filenames which contain the
query as a tag. -/
def Diff (entries : List Entry) (tagmap : Tagmap) (queries : List String) : Tagmap :=
  entries.foldl (diffEntry queries) tagmap

/-- Go `IntersectQueries`: empty query list short-circuits to the empty
set; otherwise start from the first entry and intersect left to right. -/
def IntersectQueries (tagmap : Tagmap) (queries : List String) : GoSet :=
  match queries with
  | [] => []
  | q :: rest => rest.foldl (fun set q => Intersect set (tmGet tagmap q)) (tmGet tagmap q)

/-- The inner tag loop of Go `Adjacencies`, as a zipper over the tag list:
`done` holds the tags before the current position and `todo` the current
tag and those after it, so `done ++ rest` is the Go `others` slice (the
full tag list with the current index deleted). -/
def adjTags (adj : Tagmap) (done todo : List String) : Tagmap :=
  match todo with
  | [] => adj
  | tag :: rest =>
    adjTags (tmInsert adj tag (setAddAll (tmGet adj tag) (done ++ rest))) (done ++ [tag]) rest

/-- The body of the entry loop of Go `Adjacencies`: entries whose filename
is not in `files` are skipped. -/
def adjEntry (files : GoSet) (adj : Tagmap) (e : Entry) : Tagmap :=
  if e.filename ∈ files then adjTags adj [] e.tags else adj

/-- Go `Adjacencies`: map from tag to other tags occurring in the given
files. -/
def Adjacencies (entries : List Entry) (files : GoSet) : Tagmap :=
  entries.foldl (adjEntry files) []

/-- Go `ReduceAdjacencies`: with `invert` set, collect every key of the
adjacency map; otherwise union the adjacency sets of the query terms,
skipping tags that are themselves query terms.  (The Go loop reads
`tag, val := range adjacencies[query]` and also tests `val`; in this
snapshot every stored value is `true`, so the test is vacuous.) -/
def ReduceAdjacencies (adjacencies : Tagmap) (queries : List String) (invert : Bool) : GoSet :=
  if invert then
    setAddAll [] (adjacencies.map Prod.fst)
  else
    queries.foldl (fun reduced query =>
      (tmGet adjacencies query).foldl (fun reduced tag =>
        if ¬(tag ∈ queries) then setAdd reduced tag else reduced) reduced) []

/-- Digit-string to number, for the date parser. -/
def digitsToNat (l : List Char) : Nat :=
  l.foldl (fun n c => n * 10 + (c.toNat - 48)) 0

/-- Day count of a month, as Go `time.Parse` validates it. -/
def daysInMonth (y m : Nat) : Nat :=
  if m = 2 then
    if (y % 4 = 0 ∧ y % 100 ≠ 0) ∨ y % 400 = 0 then 29 else 28
  else if m = 4 ∨ m = 6 ∨ m = 9 ∨ m = 11 then 30 else 31

/-- Go `time.Parse("2006.01.02", s)` with the error discarded, as both
`ParseDate` and `Date` call it: a well-formed `YYYY.MM.DD` string (4-2-2
digits, month and day in range) yields that calendar date; anything else
yields the zero `time.Time{}`, i.e. 0001-01-01. -/
def parseGoDate (s : String) : GoDate :=
  match goSplit s.toList '.' with
  | [y, m, d] =>
    if y.length = 4 ∧ m.length = 2 ∧ d.length = 2
        ∧ y.all Char.isDigit ∧ m.all Char.isDigit ∧ d.all Char.isDigit then
      if 1 ≤ digitsToNat m ∧ digitsToNat m ≤ 12
          ∧ 1 ≤ digitsToNat d ∧ digitsToNat d ≤ daysInMonth (digitsToNat y) (digitsToNat m) then
        ⟨digitsToNat y, digitsToNat m, digitsToNat d⟩
      else GoDate.zero
    else GoDate.zero
  | _ => GoDate.zero

/-- Go `time.Time.Compare` on the dates this program builds (the clock
components are always zero): lexicographic comparison of the triple. -/
def GoDate.comp (a b : GoDate) : Int :=
  if a.year < b.year then -1 else if b.year < a.year then 1
  else if a.month < b.month then -1 else if b.month < a.month then 1
  else if a.day < b.day then -1 else if b.day < a.day then 1
  else 0

/-- The calendar order on dates, written out as a proposition (this is the
specification-side order the claims speak about). -/
def GoDate.Le (a b : GoDate) : Prop :=
  a.year < b.year ∨ (a.year = b.year ∧
    (a.month < b.month ∨ (a.month = b.month ∧ a.day ≤ b.day)))

instance : DecidablePred fun p : GoDate × GoDate => GoDate.Le p.1 p.2 :=
  fun _ => by unfold GoDate.Le; infer_instance

instance (a b : GoDate) : Decidable (GoDate.Le a b) := by
  unfold GoDate.Le; infer_instance

/-- Go `strings.Cut(s, "-")`: the parts before and after the first dash,
and whether a dash was found. -/
def goCutDash (s : String) : String × String × Bool :=
  match goSplit s.toList '-' with
  | [] => (s, "", false)
  | [x] => (x.asString, "", false)
  | x :: rest => (x.asString, (joinSep '-' rest).asString, true)

/-- The `from` bound computed by Go `Date`. -/
def dateLo (date : String) : GoDate :=
  parseGoDate (goCutDash date).1

/-- The `to` bound computed by Go `Date`: the part after the dash when a
dash was found, otherwise the single date again. -/
def dateHi (date : String) : GoDate :=
  if (goCutDash date).2.2 then parseGoDate (goCutDash date).2.1
  else parseGoDate (goCutDash date).1

/-- Go `Date`: shrink the entries to those whose date lies in the range. -/
def Date (entries : List Entry) (date : String) : List Entry :=
  entries.filter (fun e =>
    decide (GoDate.comp (dateLo date) e.date ≤ 0 ∧ 0 ≤ GoDate.comp (dateHi date) e.date))

/-- Go string order on character lists (`slices.Sort` on strings sorts by
this order; UTF-8 byte order coincides with code-point order). -/
def leCL : List Char → List Char → Bool
  | [], _ => true
  | _ :: _, [] => false
  | a :: as, b :: bs => if a < b then true else if b < a then false else leCL as bs

/-- Sorted insertion, the building block of the model of `slices.Sort`. -/
def insertSorted (x : String) : List String → List String
  | [] => [x]
  | y :: ys => if leCL x.toList y.toList then x :: y :: ys else y :: insertSorted x ys

/-- Model of Go `slices.Sort` on a string slice: sort ascending. -/
def goSort (l : List String) : List String :=
  l.foldr insertSorted []

/-- Go `SprintFiles`: collect the members (the argument is the key list in
iteration order), sort them, join with newlines, `Sprintln`. -/
def SprintFiles (files : GoSet) : String :=
  String.intercalate "\n" (goSort files) ++ "\n"

/-- Go `Print`, returning the emitted bytes instead of writing them.
`files` and `adjacencies` are the key lists of the two sets in iteration
order (`Set.Members` collects a Go map's keys in iteration order). -/
def PrintStr (files : GoSet) (adjacencies : GoSet) (queries : List String) (verbose : Bool) : String :=
  let f := SprintFiles files
  if !verbose then f
  else
    let filesstr := "[files]\n" ++ f
    let tags := queries.foldl (fun acc q => acc ++ q ++ "\n") "[tags]\n"
    let adj := "[adjacencies]\n" ++ (String.intercalate "\n" adjacencies ++ "\n")
    let sums := "[sums]\n" ++ ("files = " ++ toString files.length ++ "\n")
      ++ ("adjacencies = " ++ toString adjacencies.length ++ "\n")
    filesstr ++ "\n" ++ tags ++ "\n" ++ adj ++ "\n" ++ sums ++ "\n"

/-- Sample records shaped like the repository's mock corpus, used to
instantiate theorems at concrete inputs. -/
def sampleEntries : List Entry :=
  [⟨"01.foo.md", ⟨2024, 9, 25⟩, "# 01.foo.md\n\nFoo bar science.", ["foo", "bar"]⟩,
   ⟨"02.bar.md", ⟨2024, 9, 26⟩, "# 02.bar.md\n\nBar text.", ["bar"]⟩]

/-- A sample tagmap for the same corpus. -/
def sampleTagmap : Tagmap :=
  [("foo", ["01.foo.md"]), ("bar", ["01.foo.md", "02.bar.md"])]

/-- A record whose header has no parseable date: its date field is the zero
time value. -/
def zeroEntry : Entry := ⟨"z.md", GoDate.zero, "", []⟩

/-- A record whose body contains the capitalised word Science. -/
def mixedEntry : Entry := ⟨"01.md", GoDate.zero, "Science rocks", ["x"]⟩

/-! ### Basic lemmas about the set and map model -/

theorem mem_setAdd {s : GoSet} {m x : String} :
    x ∈ setAdd s m ↔ x ∈ s ∨ x = m := by
  unfold setAdd
  split
  · rename_i h
    constructor
    · exact Or.inl
    · rintro (hx | rfl) <;> [exact hx; exact h]
  · simp [List.mem_append]

theorem mem_setAddAll {s : GoSet} {ms : List String} {x : String} :
    x ∈ setAddAll s ms ↔ x ∈ s ∨ x ∈ ms := by
  induction ms generalizing s with
  | nil => simp [setAddAll]
  | cons m rest ih =>
    show x ∈ setAddAll (setAdd s m) rest ↔ _
    rw [ih, mem_setAdd]
    simp only [List.mem_cons]
    tauto

theorem mem_Intersect {p q : GoSet} {x : String} :
    x ∈ Intersect p q ↔ x ∈ p ∧ x ∈ q := by
  simp [Intersect, List.mem_filter]

theorem tmGet_insert_self (tm : Tagmap) (k : String) (v : GoSet) :
    tmGet (tmInsert tm k v) k = v := by
  induction tm with
  | nil => simp [tmInsert, tmGet]
  | cons p rest ih =>
    obtain ⟨k', v'⟩ := p
    unfold tmInsert
    split
    · simp [tmGet]
    · rename_i h
      simp only [tmGet, if_neg h]
      exact ih

theorem tmGet_insert_ne (tm : Tagmap) (k : String) (v : GoSet) {k' : String}
    (h : k' ≠ k) : tmGet (tmInsert tm k v) k' = tmGet tm k' := by
  have hne : ¬(k = k') := fun h' => h h'.symm
  induction tm with
  | nil => simp [tmInsert, tmGet, if_neg hne]
  | cons p rest ih =>
    obtain ⟨a, b⟩ := p
    unfold tmInsert
    split
    · rename_i ha
      subst ha
      simp only [tmGet, if_neg hne]
    · simp only [tmGet]
      split
      · rfl
      · exact ih

theorem tmGet_eq_nil_of_not_containsKey {tm : Tagmap} {k : String}
    (h : tmContainsKey tm k = false) : tmGet tm k = [] := by
  induction tm with
  | nil => rfl
  | cons p rest ih =>
    obtain ⟨a, b⟩ := p
    simp only [tmContainsKey, Bool.or_eq_false_iff, decide_eq_false_iff_not] at h
    simp only [tmGet, if_neg h.1]
    exact ih h.2

/-! ### Frame lemmas: the widening and narrowing loops write only query keys -/

theorem grepStep_get_ne (e : Entry) (tm : Tagmap) {q k : String} (h : k ≠ q) :
    tmGet (grepStep e tm q) k = tmGet tm k := by
  unfold grepStep
  split
  · exact tmGet_insert_ne _ _ _ h
  · rfl

theorem findStep_get_ne (e : Entry) (tm : Tagmap) {q k : String} (h : k ≠ q) :
    tmGet (findStep e tm q) k = tmGet tm k := by
  unfold findStep
  split
  · exact tmGet_insert_ne _ _ _ h
  · rfl

theorem diffStep_get_ne (e : Entry) (tm : Tagmap) {q k : String} (h : k ≠ q) :
    tmGet (diffStep e tm q) k = tmGet tm k := by
  unfold diffStep
  split
  · split
    · exact tmGet_insert_ne _ _ _ h
    · rfl
  · rfl

theorem foldl_queries_get_of_not_mem {k : String} {step : Tagmap → String → Tagmap}
    (hstep : ∀ tm q, k ≠ q → tmGet (step tm q) k = tmGet tm k) :
    ∀ (qs : List String) (tm : Tagmap), k ∉ qs →
      tmGet (qs.foldl step tm) k = tmGet tm k := by
  intro qs
  induction qs with
  | nil => intro tm _; rfl
  | cons q rest ih =>
    intro tm hk
    have hk1 : k ≠ q := fun h => hk (h ▸ List.mem_cons_self q rest)
    have hk2 : k ∉ rest := fun h => hk (List.mem_cons_of_mem q h)
    show tmGet (rest.foldl step (step tm q)) k = tmGet tm k
    rw [ih (step tm q) hk2, hstep tm q hk1]

theorem foldl_entries_get {k : String} {f : Tagmap → Entry → Tagmap}
    (hf : ∀ tm e, tmGet (f tm e) k = tmGet tm k) :
    ∀ (es : List Entry) (tm : Tagmap), tmGet (es.foldl f tm) k = tmGet tm k := by
  intro es
  induction es with
  | nil => intro tm; rfl
  | cons e rest ih =>
    intro tm
    show tmGet (rest.foldl f (f tm e)) k = tmGet tm k
    rw [ih (f tm e), hf tm e]

/-! ### Membership after Grep -/

theorem grepStep_get_self (e : Entry) (tm : Tagmap) (q : String) :
    tmGet (grepStep e tm q) q =
      if goContains (goToLower e.content) q then setAdd (tmGet tm q) e.filename
      else tmGet tm q := by
  unfold grepStep
  split
  · exact tmGet_insert_self _ _ _
  · rfl

theorem mem_grepStep_get_self {e : Entry} {tm : Tagmap} {q x : String} :
    x ∈ tmGet (grepStep e tm q) q ↔
      x ∈ tmGet tm q ∨ (goContains (goToLower e.content) q = true ∧ x = e.filename) := by
  rw [grepStep_get_self]
  split
  · rename_i h
    rw [mem_setAdd]
    simp [h]
  · rename_i h
    simp [h]

theorem mem_grepEntry_get {e : Entry} {q x : String} :
    ∀ (qs : List String) (tm : Tagmap), q ∈ qs →
      (x ∈ tmGet (qs.foldl (grepStep e) tm) q ↔
        x ∈ tmGet tm q ∨ (goContains (goToLower e.content) q = true ∧ x = e.filename)) := by
  intro qs
  induction qs with
  | nil => intro tm h; cases h
  | cons q' rest ih =>
    intro tm hq
    show x ∈ tmGet (rest.foldl (grepStep e) (grepStep e tm q')) q ↔ _
    by_cases hmem : q ∈ rest
    · rw [ih _ hmem]
      by_cases hqq : q = q'
      · subst hqq
        rw [mem_grepStep_get_self]
        tauto
      · rw [grepStep_get_ne e tm hqq]
    · have hq' : q = q' := by
        rcases List.mem_cons.mp hq with h | h
        · exact h
        · exact absurd h hmem
      subst hq'
      rw [foldl_queries_get_of_not_mem (fun tm q h => grepStep_get_ne e tm h) rest _ hmem,
        mem_grepStep_get_self]

theorem grep_mem_aux {queries : List String} {q x : String} (hq : q ∈ queries) :
    ∀ (entries : List Entry) (tm : Tagmap),
      x ∈ tmGet (Grep entries tm queries) q ↔
        x ∈ tmGet tm q ∨
          ∃ e ∈ entries, x = e.filename ∧ goContains (goToLower e.content) q = true := by
  intro entries
  induction entries with
  | nil => intro tm; simp [Grep]
  | cons e rest ih =>
    intro tm
    show x ∈ tmGet (Grep rest (grepEntry queries tm e) queries) q ↔ _
    rw [ih, show grepEntry queries tm e = queries.foldl (grepStep e) tm from rfl,
      mem_grepEntry_get queries tm hq]
    simp only [List.exists_mem_cons_iff]
    tauto

/-! ### Membership after Diff -/

theorem mem_diffStep_get_self {e : Entry} {tm : Tagmap} {q x : String} :
    x ∈ tmGet (diffStep e tm q) q ↔
      x ∈ tmGet tm q ∧ (q ∈ e.tags → ¬x = e.filename) := by
  unfold diffStep
  split
  · rename_i htag
    split
    · rw [tmGet_insert_self]
      simp [List.mem_filter, htag]
    · rename_i hck
      have hnil : tmGet tm q = [] :=
        tmGet_eq_nil_of_not_containsKey (by simpa using hck)
      simp [hnil]
  · rename_i htag
    simp [htag]

theorem mem_diffEntry_get {e : Entry} {q x : String} :
    ∀ (qs : List String) (tm : Tagmap), q ∈ qs →
      (x ∈ tmGet (qs.foldl (diffStep e) tm) q ↔
        x ∈ tmGet tm q ∧ (q ∈ e.tags → ¬x = e.filename)) := by
  intro qs
  induction qs with
  | nil => intro tm h; cases h
  | cons q' rest ih =>
    intro tm hq
    show x ∈ tmGet (rest.foldl (diffStep e) (diffStep e tm q')) q ↔ _
    by_cases hmem : q ∈ rest
    · rw [ih _ hmem]
      by_cases hqq : q = q'
      · subst hqq
        rw [mem_diffStep_get_self]
        tauto
      · rw [diffStep_get_ne e tm hqq]
    · have hq' : q = q' := by
        rcases List.mem_cons.mp hq with h | h
        · exact h
        · exact absurd h hmem
      subst hq'
      rw [foldl_queries_get_of_not_mem (fun tm q h => diffStep_get_ne e tm h) rest _ hmem,
        mem_diffStep_get_self]

theorem diff_mem_aux {queries : List String} {q x : String} (hq : q ∈ queries) :
    ∀ (entries : List Entry) (tm : Tagmap),
      x ∈ tmGet (Diff entries tm queries) q ↔
        x ∈ tmGet tm q ∧ ∀ e ∈ entries, q ∈ e.tags → ¬x = e.filename := by
  intro entries
  induction entries with
  | nil => intro tm; simp [Diff]
  | cons e rest ih =>
    intro tm
    show x ∈ tmGet (Diff rest (diffEntry queries tm e) queries) q ↔ _
    rw [ih, show diffEntry queries tm e = queries.foldl (diffStep e) tm from rfl,
      mem_diffEntry_get queries tm hq]
    simp only [List.forall_mem_cons]
    tauto

/-! ### Membership in the intersected query result -/

theorem mem_foldl_intersect {tm : Tagmap} {x : String} :
    ∀ (rest : List String) (init : GoSet),
      x ∈ rest.foldl (fun set q => Intersect set (tmGet tm q)) init ↔
        x ∈ init ∧ ∀ q ∈ rest, x ∈ tmGet tm q := by
  intro rest
  induction rest with
  | nil => intro init; simp
  | cons q rs ih =>
    intro init
    show x ∈ rs.foldl _ (Intersect init (tmGet tm q)) ↔ _
    rw [ih, mem_Intersect]
    simp only [List.forall_mem_cons]
    tauto

theorem mem_intersectQueries {tm : Tagmap} {queries : List String} {x : String} :
    x ∈ IntersectQueries tm queries ↔ queries ≠ [] ∧ ∀ q ∈ queries, x ∈ tmGet tm q := by
  cases queries with
  | nil => simp [IntersectQueries]
  | cons q rest =>
    show x ∈ rest.foldl _ (tmGet tm q) ↔ _
    rw [mem_foldl_intersect]
    simp only [List.forall_mem_cons, ne_eq, List.cons_ne_nil, not_false_iff, true_and]
    try tauto

/-! ### Membership in the reduced adjacency set -/

theorem mem_reduce_inner {queries : List String} {x : String} :
    ∀ (s : List String) (r0 : GoSet),
      x ∈ s.foldl (fun reduced tag =>
          if ¬(tag ∈ queries) then setAdd reduced tag else reduced) r0 ↔
        x ∈ r0 ∨ (x ∈ s ∧ x ∉ queries) := by
  intro s
  induction s with
  | nil => intro r0; simp
  | cons t ts ih =>
    intro r0
    show x ∈ ts.foldl _ (if ¬(t ∈ queries) then setAdd r0 t else r0) ↔ _
    rw [ih]
    by_cases ht : t ∈ queries
    · rw [if_neg (not_not_intro ht)]
      by_cases hxt : x = t
      · subst hxt
        simp [ht]
      · simp only [List.mem_cons, hxt, false_or]
    · rw [if_pos ht]
      by_cases hxt : x = t
      · subst hxt
        rw [mem_setAdd]
        simp [ht]
      · rw [mem_setAdd]
        simp only [List.mem_cons, hxt, false_or]
        tauto

theorem mem_reduce_outer {adj : Tagmap} {queries : List String} {x : String} :
    ∀ (qs : List String) (r0 : GoSet),
      x ∈ qs.foldl (fun reduced query =>
          (tmGet adj query).foldl (fun reduced tag =>
            if ¬(tag ∈ queries) then setAdd reduced tag else reduced) reduced) r0 ↔
        x ∈ r0 ∨ ((∃ q ∈ qs, x ∈ tmGet adj q) ∧ x ∉ queries) := by
  intro qs
  induction qs with
  | nil => intro r0; simp
  | cons q rest ih =>
    intro r0
    show x ∈ rest.foldl _ ((tmGet adj q).foldl _ r0) ↔ _
    rw [ih, mem_reduce_inner]
    simp only [List.exists_mem_cons_iff]
    tauto

/-! ### No self-adjacency for duplicate-free tag lists -/

theorem adjTags_no_self {adj : Tagmap} {done todo : List String}
    (hadj : ∀ t, t ∉ tmGet adj t) (hnd : (done ++ todo).Nodup) :
    ∀ t, t ∉ tmGet (adjTags adj done todo) t := by
  induction todo generalizing adj done with
  | nil => exact hadj
  | cons tag rest ih =>
    show ∀ t, t ∉ tmGet (adjTags (tmInsert adj tag
      (setAddAll (tmGet adj tag) (done ++ rest))) (done ++ [tag]) rest) t
    have hnotin : tag ∉ done ++ rest := by
      rcases List.nodup_append.mp hnd with ⟨hd, hc, hdisj⟩
      rcases List.nodup_cons.mp hc with ⟨htr, _⟩
      intro hmem
      rcases List.mem_append.mp hmem with h | h
      · exact hdisj h (List.mem_cons_self tag rest)
      · exact htr h
    apply ih
    · intro t
      by_cases ht : t = tag
      · subst ht
        rw [tmGet_insert_self]
        intro hmem
        rcases mem_setAddAll.mp hmem with h | h
        · exact hadj t h
        · exact hnotin h
      · rw [tmGet_insert_ne _ _ _ ht]
        exact hadj t
    · simpa [List.append_assoc] using hnd

theorem adjFold_no_self {files : GoSet} :
    ∀ (es : List Entry), (∀ e ∈ es, e.tags.Nodup) →
      ∀ (adj : Tagmap), (∀ t, t ∉ tmGet adj t) →
        ∀ t, t ∉ tmGet (es.foldl (adjEntry files) adj) t := by
  intro es
  induction es with
  | nil => intro _ adj hadj; exact hadj
  | cons e rest ih =>
    intro hnd adj hadj
    show ∀ t, t ∉ tmGet (rest.foldl (adjEntry files) (adjEntry files adj e)) t
    apply ih (fun e' he' => hnd e' (List.mem_cons_of_mem e he'))
    intro t
    unfold adjEntry
    split
    · exact adjTags_no_self hadj (by simpa using hnd e (List.mem_cons_self e rest)) t
    · exact hadj t

/-! ### Properties of the query splitter -/

theorem goSplit_ne_nil (l : List Char) (sep : Char) : goSplit l sep ≠ [] := by
  cases l with
  | nil => simp [goSplit]
  | cons c rest =>
    unfold goSplit
    split
    · simp
    · split <;> simp

theorem goSplit_eq_single {l : List Char} {sep : Char} (h : sep ∉ l) :
    goSplit l sep = [l] := by
  induction l with
  | nil => rfl
  | cons c rest ih =>
    have hc : ¬c = sep := fun hh => h (hh ▸ List.mem_cons_self c rest)
    have hr : sep ∉ rest := fun hh => h (List.mem_cons_of_mem c hh)
    unfold goSplit
    rw [if_neg hc, ih hr]

theorem joinSep_goSplit (l : List Char) (sep : Char) :
    joinSep sep (goSplit l sep) = l := by
  induction l with
  | nil => rfl
  | cons c rest ih =>
    unfold goSplit
    by_cases hc : c = sep
    · rw [if_pos hc]
      obtain ⟨t, ts, hts⟩ : ∃ t ts, goSplit rest sep = t :: ts := by
        cases hsp : goSplit rest sep with
        | nil => exact absurd hsp (goSplit_ne_nil rest sep)
        | cons t ts => exact ⟨t, ts, rfl⟩
      rw [hts]
      show [] ++ sep :: joinSep sep (t :: ts) = c :: rest
      rw [← hts, ih, hc]
      rfl
    · rw [if_neg hc]
      cases hsp : goSplit rest sep with
      | nil => exact absurd hsp (goSplit_ne_nil rest sep)
      | cons t ts =>
        have hjoin : joinSep sep (t :: ts) = rest := by rw [← hsp]; exact ih
        cases ts with
        | nil =>
          show c :: t = c :: rest
          rw [show joinSep sep [t] = t from rfl] at hjoin
          rw [hjoin]
        | cons u us =>
          show (c :: t) ++ sep :: joinSep sep (u :: us) = c :: rest
          rw [show joinSep sep (t :: u :: us) = t ++ sep :: joinSep sep (u :: us) from rfl]
            at hjoin
          rw [← hjoin]
          rfl

theorem parseQuery_toList (s : String) :
    (ParseQuery s).map String.toList = goSplit s.toList '+' := by
  unfold ParseQuery
  rw [List.map_map]
  have hcomp : (String.toList ∘ List.asString) = id := funext fun l => rfl
  rw [hcomp, List.map_id]

/-! ### Date comparison -/

theorem comp_le_zero_iff (a b : GoDate) : GoDate.comp a b ≤ 0 ↔ GoDate.Le a b := by
  unfold GoDate.comp GoDate.Le
  split_ifs <;> omega

theorem zero_le_comp_iff (a b : GoDate) : 0 ≤ GoDate.comp a b ↔ GoDate.Le b a := by
  unfold GoDate.comp GoDate.Le
  split_ifs <;> omega

/-! ### Claim C1: query parsing -/

/-- Claim C1, counterexample: the claim says a query containing a comma is
split on the comma into OR terms, but `ParseQuery` splits only on the plus
sign, so the comma-bearing query comes back whole. -/
theorem parseQuery_comma_counterexample :
    ParseQuery "a,b" = ["a,b"] ∧ ParseQuery "a,b" ≠ ["a", "b"] := by decide

/-- Claim C1 (amended): query parsing splits the raw query string only on
the plus sign; a comma is not a separator, so a query containing a comma
but no plus sign is returned whole as a single term; joining the parsed
terms with the plus sign restores the original query string. -/
theorem parseQuery_plus_only (s : String) :
    (',' ∈ s.toList → '+' ∉ s.toList → ParseQuery s = [s])
    ∧ joinSep '+' ((ParseQuery s).map String.toList) = s.toList := by
  constructor
  · intro _ hplus
    unfold ParseQuery
    rw [goSplit_eq_single hplus]
    rfl
  · rw [parseQuery_toList, joinSep_goSplit]

/-- Claim C1, witness: the amended theorem applied to the comma query. -/
theorem parseQuery_plus_only_witness : ParseQuery "x,y" = ["x,y"] :=
  (parseQuery_plus_only "x,y").1 (by decide) (by decide)

/-! ### Claim C2: AND evaluation is a left-to-right intersection -/

/-- Claim C2: a filename is in the AND evaluation of a term list exactly
when the list is nonempty and the filename is in the tagmap entry of every
term (a term absent from the tagmap reads as the empty set); the empty
term list evaluates to the empty set; and an AND query containing a term
whose tagmap entry is empty (for example a never-seen tag) evaluates to
the empty set. -/
theorem intersectQueries_semantics (tm : Tagmap) (queries : List String) (x : String) :
    (x ∈ IntersectQueries tm queries ↔ queries ≠ [] ∧ ∀ q ∈ queries, x ∈ tmGet tm q)
    ∧ IntersectQueries tm [] = []
    ∧ (∀ q₀ ∈ queries, tmGet tm q₀ = [] → IntersectQueries tm queries = []) := by
  refine ⟨mem_intersectQueries, rfl, ?_⟩
  intro q₀ hq₀ hnil
  apply List.eq_nil_iff_forall_not_mem.mpr
  intro y hy
  rcases mem_intersectQueries.mp hy with ⟨-, hall⟩
  have hmem := hall q₀ hq₀
  rw [hnil] at hmem
  cases hmem

/-- Claim C2, witness: an AND query with the never-seen tag qaz evaluates
to the empty set over the sample tagmap. -/
theorem intersectQueries_semantics_witness :
    IntersectQueries sampleTagmap ["bar", "qaz"] = [] :=
  (intersectQueries_semantics sampleTagmap ["bar", "qaz"] "x").2.2 "qaz" (by decide) (by decide)

/-! ### Claim C3: grep widening and letter case -/

/-- Claim C3, counterexample: the claim says the query term is case-folded
before the substring test, but `Grep` lowercases only the record body; for
the term Science the folded term is a substring of the folded body, yet
the tagmap entry for Science stays empty because the unfolded term never
matches the lowercased content. -/
theorem grep_case_counterexample :
    goContains (goToLower mixedEntry.content) (goToLower "Science") = true
    ∧ tmGet (Grep [mixedEntry] [] ["Science"]) "Science" = [] := by decide

/-- Claim C3 (amended): grep widening adds a record's filename to the
tagmap entry of a query term exactly when the term, as written and not
case-folded, is a substring of the case-folded (lowercased) record body;
a term containing uppercase letters therefore fails to match bodies that
carry it in another letter case. -/
theorem grep_mem (entries : List Entry) (tm : Tagmap) (queries : List String)
    (q x : String) (hq : q ∈ queries) :
    x ∈ tmGet (Grep entries tm queries) q ↔
      x ∈ tmGet tm q ∨
        ∃ e ∈ entries, x = e.filename ∧ goContains (goToLower e.content) q = true :=
  grep_mem_aux hq entries tm

/-- Claim C3, witness: the amended theorem applied to the sample corpus
and the lowercase term science. -/
theorem grep_mem_witness :
    ("science" ∈ (["science"] : List String)) ∧
      ("01.foo.md" ∈ tmGet (Grep sampleEntries [] ["science"]) "science" ↔
        "01.foo.md" ∈ tmGet ([] : Tagmap) "science" ∨
          ∃ e ∈ sampleEntries, "01.foo.md" = e.filename
            ∧ goContains (goToLower e.content) "science" = true) :=
  ⟨by decide, grep_mem sampleEntries [] ["science"] "science" "01.foo.md" (by decide)⟩

/-! ### Claim C4: self-adjacency -/

/-- Claim C4, counterexample: the claim says no tag is ever adjacent to
itself even when one record lists the same tag twice, but for a record
tagged a, a the position-based pairing makes a adjacent to itself. -/
theorem adjacencies_self_counterexample :
    "a" ∈ tmGet (Adjacencies [⟨"f.md", GoDate.zero, "", ["a", "a"]⟩] ["f.md"]) "a" := by
  decide

/-- Claim C4 (amended): provided every record's tag list is duplicate-free,
the adjacency index never maps a tag to itself; a tag listed twice in one
record, however, becomes its own adjacency. -/
theorem adjacencies_no_self (entries : List Entry) (files : GoSet)
    (h : ∀ e ∈ entries, e.tags.Nodup) (t : String) :
    t ∉ tmGet (Adjacencies entries files) t :=
  adjFold_no_self entries h [] (fun t => List.not_mem_nil t) t

/-- Claim C4, witness: the amended theorem applied to the sample corpus,
whose tag lists are duplicate-free. -/
theorem adjacencies_no_self_witness :
    "foo" ∉ tmGet (Adjacencies sampleEntries ["01.foo.md", "02.bar.md"]) "foo" :=
  adjacencies_no_self sampleEntries ["01.foo.md", "02.bar.md"] (by decide) "foo"

/-! ### Claim C5: date filtering -/

/-- Claim C5, counterexample: the claim says a record with the zero date is
always excluded regardless of range, but the range 0001.01.01 parses to
the zero date itself and retains the zero-dated record. -/
theorem date_zero_counterexample :
    zeroEntry.date = GoDate.zero ∧ Date [zeroEntry] "0001.01.01" = [zeroEntry] := by decide

/-- Claim C5 (amended): date filtering keeps exactly the records whose date
lies between the parsed start and end of the range, inclusive at both ends
under the calendar order; a date expression without a dash is a range
whose start and end coincide.  A record with the zero (unset) date is only
excluded when the parsed start lies after the zero date: a range whose
start parses (or degenerates on a parse failure) to the zero date retains
zero-dated records. -/
theorem date_filter_spec (entries : List Entry) (ds : String) (e : Entry) :
    (e ∈ Date entries ds ↔
      e ∈ entries ∧ GoDate.Le (dateLo ds) e.date ∧ GoDate.Le e.date (dateHi ds))
    ∧ ((goCutDash ds).2.2 = false → dateLo ds = dateHi ds) := by
  constructor
  · unfold Date
    rw [List.mem_filter]
    simp only [decide_eq_true_eq, comp_le_zero_iff, zero_le_comp_iff, and_assoc]
  · intro h
    simp [dateHi, dateLo, h]

/-- Claim C5, witness: a single date is a degenerate range. -/
theorem date_filter_spec_witness :
    (goCutDash "2024.09.25").2.2 = false ∧ dateLo "2024.09.25" = dateHi "2024.09.25" :=
  ⟨by decide, (date_filter_spec [] "2024.09.25" zeroEntry).2 (by decide)⟩

/-! ### Claim C6: determinism of the report printer -/

/-- Claim C6: the printer is claimed to emit byte-identical output for
identical inputs in both modes, but in verbose mode the adjacency section
follows the iteration order of the adjacency set (a Go map, whose
iteration order is randomized per run): two iteration orders of the same
two-element adjacency set give different bytes, while compact mode sorts
and is order-independent. -/
theorem print_verbose_order_dependent :
    (["foo", "science"] : List String).Perm ["science", "foo"]
    ∧ PrintStr [] ["foo", "science"] ["bar"] true ≠ PrintStr [] ["science", "foo"] ["bar"] true
    ∧ PrintStr ["b", "a"] ["foo", "science"] ["bar"] false
        = PrintStr ["a", "b"] ["science", "foo"] ["bar"] false := by
  decide

/-! ### Claim C7: adjacency reduction -/

/-- Claim C7: with the inverted flag set, adjacency reduction returns
exactly the keys of the adjacency map; with it unset, it returns exactly
the tags that occur in the adjacency set of some query term and are not
themselves query terms, so no query term ever appears in the result. -/
theorem reduceAdjacencies_spec (adjacencies : Tagmap) (queries : List String) (x : String) :
    (x ∈ ReduceAdjacencies adjacencies queries true ↔ x ∈ adjacencies.map Prod.fst)
    ∧ (x ∈ ReduceAdjacencies adjacencies queries false ↔
        (∃ q ∈ queries, x ∈ tmGet adjacencies q) ∧ x ∉ queries) := by
  constructor
  · show x ∈ setAddAll [] (adjacencies.map Prod.fst) ↔ _
    rw [mem_setAddAll]
    simp
  · show x ∈ queries.foldl _ [] ↔ _
    rw [mem_reduce_outer]
    simp

/-! ### Claim C8: diff narrowing -/

/-- Claim C8: after Diff narrowing, the tagmap entry of each query term
holds exactly the old members that are not the filename of any record
whose tag list contains that term — files formally tagged with the term
are removed, and nothing else is removed. -/
theorem diff_mem (entries : List Entry) (tm : Tagmap) (queries : List String)
    (q x : String) (hq : q ∈ queries) :
    x ∈ tmGet (Diff entries tm queries) q ↔
      x ∈ tmGet tm q ∧ ∀ e ∈ entries, q ∈ e.tags → ¬x = e.filename :=
  diff_mem_aux hq entries tm

/-- Claim C8, witness: the theorem applied to the sample corpus for the
term bar. -/
theorem diff_mem_witness :
    ("bar" ∈ (["bar"] : List String)) ∧
      ("01.foo.md" ∈ tmGet (Diff sampleEntries sampleTagmap ["bar"]) "bar" ↔
        "01.foo.md" ∈ tmGet sampleTagmap "bar" ∧
          ∀ e ∈ sampleEntries, "bar" ∈ e.tags → ¬"01.foo.md" = e.filename) :=
  ⟨by decide, diff_mem sampleEntries sampleTagmap ["bar"] "bar" "01.foo.md" (by decide)⟩

/-! ### Claim C9: frame property of Grep, Find, Diff -/

/-- Claim C9: Grep, Find, and Diff modify only tagmap entries keyed by a
query term; every key that is not a query term keeps its entry unchanged
under each of the three operations. -/
theorem widen_narrow_frame (entries : List Entry) (tm : Tagmap)
    (queries : List String) (k : String) (h : k ∉ queries) :
    tmGet (Grep entries tm queries) k = tmGet tm k ∧
    tmGet (Find entries tm queries) k = tmGet tm k ∧
    tmGet (Diff entries tm queries) k = tmGet tm k := by
  refine ⟨?_, ?_, ?_⟩
  · exact foldl_entries_get (fun tm e =>
      foldl_queries_get_of_not_mem (fun tm q hne => grepStep_get_ne e tm hne) queries tm h)
      entries tm
  · exact foldl_entries_get (fun tm e =>
      foldl_queries_get_of_not_mem (fun tm q hne => findStep_get_ne e tm hne) queries tm h)
      entries tm
  · exact foldl_entries_get (fun tm e =>
      foldl_queries_get_of_not_mem (fun tm q hne => diffStep_get_ne e tm hne) queries tm h)
      entries tm

/-- Claim C9, witness: the frame theorem applied to the sample corpus at
the non-query key foo. -/
theorem widen_narrow_frame_witness :
    ("foo" ∉ (["bar"] : List String)) ∧
      (tmGet (Grep sampleEntries sampleTagmap ["bar"]) "foo" = tmGet sampleTagmap "foo" ∧
       tmGet (Find sampleEntries sampleTagmap ["bar"]) "foo" = tmGet sampleTagmap "foo" ∧
       tmGet (Diff sampleEntries sampleTagmap ["bar"]) "foo" = tmGet sampleTagmap "foo") :=
  ⟨by decide, widen_narrow_frame sampleEntries sampleTagmap ["bar"] "foo" (by decide)⟩

/-! ### Claim C10: parsing never yields an empty term list -/

/-- Claim C10: query parsing always returns at least one term; the empty
query string parses to the single empty-string term, so the empty-list
guard in AND evaluation is unreachable from the parsing path and an empty
query evaluates to the tagmap entry of the empty-string tag. -/
theorem parseQuery_total (s : String) :
    1 ≤ (ParseQuery s).length
    ∧ ParseQuery "" = [""]
    ∧ ∀ tm : Tagmap, IntersectQueries tm (ParseQuery "") = tmGet tm "" := by
  refine ⟨?_, rfl, fun tm => rfl⟩
  unfold ParseQuery
  rw [List.length_map]
  exact List.length_pos.mpr (goSplit_ne_nil _ _)

end Gag
